import Mathlib

/-!
Verification development for the OpenPAL3 radiance entity-component runtime
(`radiance/src/scene/entity.rs`) and the OpenPAL4 scene-composition layer
(`yaobow/shared/src/openpal4/scene.rs`).

The component store `HashMap<TypeId, Vec<Box<dyn Any>>>` is embedded as an
association list from a runtime type identity (a natural number standing for
`std::any::TypeId`) to the ordered sequence of type-erased values stored under
that identity.  A `Box<dyn Any>` is embedded as the pair of its concrete
type's identity and its payload; `downcast_ref::<T>` succeeds exactly when the
stored identity equals `T`'s identity.  Fallible operations return `Option`;
a `panic!`/`unreachable!` is embedded as `none` of an `Option` result.
-/

namespace Radiance

/-- Runtime type identity (`std::any::TypeId`), embedded as a natural number:
a stable, per-concrete-type identifier. -/
abbrev TypeId := Nat

/-- A type-erased boxed component value (`Box<dyn Any>`): the runtime type
identity of its concrete type together with its payload (embedded as `Nat`).
`c.as_ref().type_id()` is the `tid` field; `downcast_ref::<T>()` succeeds
exactly when `tid` equals `T`'s type identity. -/
structure AnyBox where
  tid : TypeId
  val : Nat
  deriving DecidableEq, Repr

/-- The per-entity component store `HashMap<TypeId, Vec<Box<dyn Any>>>`,
embedded as an association list from type identity to the ordered sequence of
values stored under that identity (a `HashMap` has at most one entry per key;
the operations below act on the first entry with the given key). -/
abbrev Components := List (TypeId × List AnyBox)

/-- `HashMap::contains_key`. -/
def containsKey : Components → TypeId → Bool
  | [], _ => false
  | (k, _) :: rest, t => k == t || containsKey rest t

/-- `HashMap::get`: the sequence stored under key `t`, if any. -/
def hmGet : Components → TypeId → Option (List AnyBox)
  | [], _ => none
  | (k, v) :: rest, t => if k = t then some v else hmGet rest t

/-- `HashMap::insert`: replace the sequence stored under key `t`, or add the
key if absent. -/
def hmInsert : Components → TypeId → List AnyBox → Components
  | [], t, v => [(t, v)]
  | (k, w) :: rest, t, v =>
    if k = t then (t, v) :: rest else (k, w) :: hmInsert rest t v

/-- The effect of `self.components.get_mut(&type_id).unwrap().push(component)`
in `Entity::add_component` (entity.rs lines 114-115): append `c` to the
sequence stored under key `t`. -/
def hmPush : Components → TypeId → AnyBox → Components
  | [], _, _ => []
  | (k, v) :: rest, t, c =>
    if k = t then (k, v ++ [c]) :: rest else (k, v) :: hmPush rest t c

/-- `Entity::add_component` for `CoreEntity` (entity.rs lines 108-116): take
the value's own runtime type identity; if no sequence exists under that key,
insert an empty one; then push the value onto the sequence under that key. -/
def add_component (m : Components) (c : AnyBox) : Components :=
  hmPush (if containsKey m c.tid then m else hmInsert m c.tid []) c.tid c

/-- `Entity::get_component` (entity.rs lines 118-129): `none` when the key is
absent or the sequence is empty, otherwise the FIRST element `v[0]`.  The
inner `none` branch embeds the `.unwrap()` panic path, which is unreachable
because it is guarded by `contains_key`. -/
def get_component (m : Components) (t : TypeId) : Option AnyBox :=
  if containsKey m t then
    match hmGet m t with
    | none => none
    | some v => if v.isEmpty then none else v.head?
  else none

/-- `Entity::get_component_mut` (entity.rs lines 131-142): same lookup as
`get_component`, resolving to the first element `v[0]` of the sequence. -/
def get_component_mut (m : Components) (t : TypeId) : Option AnyBox :=
  if containsKey m t then
    match hmGet m t with
    | none => none
    | some v => if v.isEmpty then none else v.head?
  else none

/-- `dyn Any::downcast_ref::<T>` (and `downcast_mut`): succeeds with the
payload exactly when the stored concrete type identity equals `t`. -/
def downcast_ref (t : TypeId) (c : AnyBox) : Option Nat :=
  if c.tid = t then some c.val else none

/-- `CoreEntity::add_component::<T>` (entity.rs lines 37-42): box the typed
value `v` of type identity `t` and delegate to the type-erased
`Entity::add_component`. -/
def add_component_typed (m : Components) (t : TypeId) (v : Nat) : Components :=
  add_component m ⟨t, v⟩

/-- `CoreEntity::get_component::<T>` (entity.rs lines 44-51): type-erased
lookup by `T`'s type identity, then `and_then(|c| c.downcast_ref())`. -/
def get_component_typed (m : Components) (t : TypeId) : Option Nat :=
  (get_component m t).bind (downcast_ref t)

/-- `CoreEntity::get_component_mut::<T>` (entity.rs lines 53-60): type-erased
mutable lookup by `T`'s type identity, then `and_then(|c| c.downcast_mut())`. -/
def get_component_mut_typed (m : Components) (t : TypeId) : Option Nat :=
  (get_component_mut m t).bind (downcast_ref t)

/-- The effect of writing payload `x` through the `&mut T` reference returned
by `get_component_mut::<T>` (which resolves to `v[0]` of the sequence under
key `t`): replace the payload of the first element of that sequence, leaving
its runtime type identity unchanged (a `&mut T` cannot change the concrete
type of the value it points at). -/
def write_component_mut : Components → TypeId → Nat → Components
  | [], _, _ => []
  | (k, v) :: rest, t, x =>
    if k = t then
      (k, match v with
          | [] => []
          | c :: cs => ⟨c.tid, x⟩ :: cs) :: rest
    else (k, v) :: write_component_mut rest t x

/-- Store invariant: every type-identity key present in the map holds a
non-empty sequence. -/
def StoreInv (m : Components) : Prop := ∀ p ∈ m, p.2 ≠ ([] : List AnyBox)

/-- Store invariant: every value stored under key `k` has runtime type
identity `k` (which `add_component` guarantees, keying by `c.tid`). -/
def WellTyped (m : Components) : Prop := ∀ p ∈ m, ∀ c ∈ p.2, c.tid = p.1

/-- A store built from the empty store by a sequence of typed insertions. -/
def build_store (ops : List (TypeId × Nat)) : Components :=
  ops.foldl (fun m p => add_component_typed m p.1 p.2) []

/-- Transform (`math::Transform`): external collaborator, embedded
abstractly as a single pose value. -/
structure Transform where
  pose : Nat
  deriving DecidableEq, Repr

/-- `Transform::new`. -/
def Transform.new : Transform := ⟨0⟩

/-- `CoreEntity<TCallbacks>` (entity.rs lines 22-26): a transform, the
component store, and the interior state of the callback set (the
`Rc<RefCell<TCallbacks>>`), with the state type `σ` standing for the
caller-chosen `TCallbacks` type. -/
structure CoreEntity (σ : Type) where
  transform : Transform
  components : Components
  callbacks : σ

/-- `CoreEntity::new` (entity.rs lines 29-35): fresh transform, empty
component map, the given callback state. -/
def CoreEntity.new (s : σ) : CoreEntity σ := ⟨Transform.new, [], s⟩

/-- Modelled from the spec: the bodies of the `define_callback_fn!` and
`callback!` macros used at entity.rs lines 17-20 and 92-98 are not under
src/.  Per the spec (sections 3, 4.2 and 6) a callback set optionally
implements the on-loading and on-updating hooks; a hook runs with mutable
access to the entity (and through it to the callback state), on_updating
additionally receiving the elapsed seconds; an unimplemented hook behaves as
a no-op.  `delta_sec : f32` is embedded as a rational number — the values in
the spec's scenario (1.5, 2.5, 4.0) are exactly representable in f32 and
their addition there is exact. -/
structure EntityCallbacks (σ : Type) where
  on_loading : CoreEntity σ → CoreEntity σ
  on_updating : CoreEntity σ → Rat → CoreEntity σ

/-- Modelled from the spec: the default hooks of `define_callback_fn!` (a
callback set implementing neither hook) are no-ops. -/
def EntityCallbacks.noop (σ : Type) : EntityCallbacks σ :=
  ⟨fun e => e, fun e _ => e⟩

/-- `Entity::load` for `CoreEntity` (entity.rs lines 92-94):
`callback!(self, on_loading)` dispatches to the callback set's on_loading
hook. -/
def CoreEntity.load (cb : EntityCallbacks σ) (e : CoreEntity σ) :
    CoreEntity σ :=
  cb.on_loading e

/-- `Entity::update` for `CoreEntity` (entity.rs lines 96-98):
`callback!(self, on_updating, delta_sec)` dispatches to the callback set's
on_updating hook, passing `delta_sec` through unchanged. -/
def CoreEntity.update (cb : EntityCallbacks σ) (e : CoreEntity σ)
    (delta_sec : Rat) : CoreEntity σ :=
  cb.on_updating e delta_sec

/-- `CoreEntity::add_component::<T>` at the entity level: delegates to the
store insertion on `self.components`. -/
def CoreEntity.addComponent (e : CoreEntity σ) (c : AnyBox) : CoreEntity σ :=
  { e with components := add_component e.components c }

/-- An instrumented callback set whose state records every on_updating
invocation: the list of `delta_sec` values received, in order. -/
def traceCallbacks : EntityCallbacks (List Rat) :=
  ⟨fun e => e, fun e dt => { e with callbacks := e.callbacks ++ [dt] }⟩

/-- The spec's concrete-scenario callback set: on_updating adds `delta_sec`
to an internal counter. -/
def counterCallbacks : EntityCallbacks Rat :=
  ⟨fun e => e, fun e dt => { e with callbacks := e.callbacks + dt }⟩

/-- Camera: external collaborator, embedded abstractly by its field of
view. -/
structure Camera where
  fov : Rat
  deriving DecidableEq, Repr

/-- Modelled from the spec: `CoreScene` lives in radiance's scene.rs, which
is declared by mod.rs but is not under src/.  Per spec sections 3 and 4.3 a
Scene owns an ordered collection of entities plus one Camera. -/
structure CoreScene (σ : Type) where
  entities : List (CoreEntity σ)
  camera : Camera

/-- Modelled from the spec: a Scene is created empty. -/
def CoreScene.new (σ : Type) : CoreScene σ := ⟨[], ⟨0⟩⟩

/-- Modelled from the spec: `add_entity` appends the entity to the scene's
collection. -/
def CoreScene.add_entity (s : CoreScene σ) (e : CoreEntity σ) :
    CoreScene σ :=
  { s with entities := s.entities ++ [e] }

/-- Modelled from the spec: scene-level `update(delta_sec)` calls `update`
on every owned entity, in insertion order, with the same `delta_sec`. -/
def CoreScene.update (cb : EntityCallbacks σ) (s : CoreScene σ)
    (delta_sec : Rat) : CoreScene σ :=
  { s with
    entities := s.entities.map (fun e => CoreEntity.update cb e delta_sec) }

/-- Modelled from the spec: scene-level `load` calls `load` on every owned
entity. -/
def CoreScene.load (cb : EntityCallbacks σ) (s : CoreScene σ) :
    CoreScene σ :=
  { s with entities := s.entities.map (fun e => CoreEntity.load cb e) }

end Radiance

namespace OpenPal4

/-- `Player` (openpal4/scene.rs lines 17-22). -/
inductive Player where
  | YunTianhe
  | HanLingsha
  | LiuMengli
  | MurongZiying
  deriving DecidableEq, Repr

/-- `Player::name` (openpal4/scene.rs lines 25-32). -/
def Player.name : Player → String
  | .YunTianhe => "YunTianhe"
  | .HanLingsha => "HanLingsha"
  | .LiuMengli => "LiuMengli"
  | .MurongZiying => "MurongZiying"

/-- `Player::actor_name` (openpal4/scene.rs lines 34-41). -/
def Player.actor_name : Player → String
  | .YunTianhe => "101"
  | .HanLingsha => "103"
  | .LiuMengli => "106"
  | .MurongZiying => "105"

/-- `Pal4Scene` (openpal4/scene.rs lines 44-47): a scene handle plus the
fixed array `players: [ComRc<IEntity>; 4]`.  The `ComRc<IEntity>` handles
are external, so the player slots are embedded abstractly by a type
parameter `ε`, the array as a list of length 4. -/
structure Pal4Scene (ε : Type) where
  players : List ε
  players_length : players.length = 4

/-- `Pal4Scene::new_empty` (openpal4/scene.rs lines 55-65): four fresh
entity handles (their construction is external). -/
def Pal4Scene.new_empty : Pal4Scene Unit :=
  ⟨[(), (), (), ()], rfl⟩

/-- `Pal4Scene::get_player` (openpal4/scene.rs lines 128-130):
`self.players[player_id].clone()`.  The out-of-bounds index panic of the
fixed-size array is embedded as `none`. -/
def Pal4Scene.get_player (s : Pal4Scene ε) (player_id : Nat) : Option ε :=
  s.players.get? player_id

/-- `Pal4Scene::get_player_metadata` (openpal4/scene.rs lines 140-148):
match on the four player-id constants `ID_YUN_TIANHE = 0` ..
`ID_MURONG_ZIYING = 3`; the `unreachable!` arm is embedded as `none`. -/
def Pal4Scene.get_player_metadata (_ : Pal4Scene ε) (player_id : Nat) :
    Option Player :=
  match player_id with
  | 0 => some Player.YunTianhe
  | 1 => some Player.HanLingsha
  | 2 => some Player.LiuMengli
  | 3 => some Player.MurongZiying
  | _ => none

end OpenPal4

namespace Radiance

-- Basic lemmas about the association-list map operations.

theorem containsKey_iff_isSome (m : Components) (t : TypeId) :
    containsKey m t = true ↔ (hmGet m t).isSome := by
  induction m with
  | nil => simp [containsKey, hmGet]
  | cons p rest ih =>
    obtain ⟨k, v⟩ := p
    by_cases h : k = t <;> simp [containsKey, hmGet, h, ih]

theorem hmGet_eq_none_of_not_contains (m : Components) (t : TypeId)
    (h : containsKey m t = false) : hmGet m t = none := by
  have := (containsKey_iff_isSome m t).not
  simp [h] at this
  cases hg : hmGet m t with
  | none => rfl
  | some v => simp [hg] at this

theorem hmGet_hmPush (m : Components) (t : TypeId) (c : AnyBox) :
    hmGet (hmPush m t c) t = (hmGet m t).map (fun v => v ++ [c]) := by
  induction m with
  | nil => simp [hmPush, hmGet]
  | cons p rest ih =>
    obtain ⟨k, v⟩ := p
    by_cases h : k = t <;> simp [hmPush, hmGet, h, ih]

theorem hmGet_hmPush_ne (m : Components) (t u : TypeId) (c : AnyBox)
    (h : u ≠ t) : hmGet (hmPush m t c) u = hmGet m u := by
  induction m with
  | nil => simp [hmPush, hmGet]
  | cons p rest ih =>
    obtain ⟨k, v⟩ := p
    simp only [hmPush]
    by_cases hk : k = t
    · rw [if_pos hk]
      have hku : ¬ k = u := by rw [hk]; exact Ne.symm h
      simp [hmGet, hku]
    · rw [if_neg hk]
      by_cases hu : k = u
      · simp [hmGet, hu]
      · simp [hmGet, hu, ih]

theorem hmGet_hmInsert_self (m : Components) (t : TypeId) (v : List AnyBox) :
    hmGet (hmInsert m t v) t = some v := by
  induction m with
  | nil => simp [hmInsert, hmGet]
  | cons p rest ih =>
    obtain ⟨k, w⟩ := p
    by_cases h : k = t <;> simp [hmInsert, hmGet, h, ih]

theorem hmGet_hmInsert_ne (m : Components) (t u : TypeId) (v : List AnyBox)
    (h : u ≠ t) : hmGet (hmInsert m t v) u = hmGet m u := by
  induction m with
  | nil => simp [hmInsert, hmGet, Ne.symm h]
  | cons p rest ih =>
    obtain ⟨k, w⟩ := p
    simp only [hmInsert]
    by_cases hk : k = t
    · rw [if_pos hk]
      have hku : ¬ k = u := by rw [hk]; exact Ne.symm h
      simp [hmGet, hku, Ne.symm h]
    · rw [if_neg hk]
      by_cases hu : k = u
      · simp [hmGet, hu]
      · simp [hmGet, hu, ih]

theorem containsKey_hmPush (m : Components) (t u : TypeId) (c : AnyBox) :
    containsKey (hmPush m t c) u = containsKey m u := by
  induction m with
  | nil => simp [hmPush]
  | cons p rest ih =>
    obtain ⟨k, v⟩ := p
    by_cases h : k = t <;> simp [hmPush, containsKey, h, ih]

theorem containsKey_hmInsert_ne (m : Components) (t u : TypeId)
    (v : List AnyBox) (h : u ≠ t) :
    containsKey (hmInsert m t v) u = containsKey m u := by
  induction m with
  | nil =>
    simp only [hmInsert, containsKey]
    have : ¬ t = u := Ne.symm h
    simp [this]
  | cons p rest ih =>
    obtain ⟨k, w⟩ := p
    simp only [hmInsert]
    by_cases hk : k = t
    · rw [if_pos hk]
      simp only [containsKey]
      have : (t == u) = (k == u) := by
        subst hk; rfl
      rw [this]
    · rw [if_neg hk]
      simp only [containsKey, ih]

/-- Effect of insertion on the sequence under the inserted key: it is the old
sequence (empty when the key was absent) with the new value appended. -/
theorem hmGet_add_component (m : Components) (c : AnyBox) :
    hmGet (add_component m c) c.tid =
      some ((hmGet m c.tid).getD [] ++ [c]) := by
  unfold add_component
  by_cases h : containsKey m c.tid
  · rw [if_pos h, hmGet_hmPush]
    have hs := (containsKey_iff_isSome m c.tid).mp h
    cases hg : hmGet m c.tid with
    | none => simp [hg] at hs
    | some v => simp [hg]
  · rw [if_neg h, hmGet_hmPush, hmGet_hmInsert_self]
    rw [hmGet_eq_none_of_not_contains m c.tid (by simpa using h)]
    rfl

theorem containsKey_add_component (m : Components) (c : AnyBox) :
    containsKey (add_component m c) c.tid = true := by
  rw [containsKey_iff_isSome, hmGet_add_component]
  rfl

theorem hmGet_add_component_ne (m : Components) (c : AnyBox) (u : TypeId)
    (h : u ≠ c.tid) : hmGet (add_component m c) u = hmGet m u := by
  unfold add_component
  by_cases hc : containsKey m c.tid
  · rw [if_pos hc, hmGet_hmPush_ne _ _ _ _ h]
  · rw [if_neg hc, hmGet_hmPush_ne _ _ _ _ h, hmGet_hmInsert_ne _ _ _ _ h]

theorem containsKey_add_component_ne (m : Components) (c : AnyBox)
    (u : TypeId) (h : u ≠ c.tid) :
    containsKey (add_component m c) u = containsKey m u := by
  unfold add_component
  by_cases hc : containsKey m c.tid
  · rw [if_pos hc, containsKey_hmPush]
  · rw [if_neg hc, containsKey_hmPush, containsKey_hmInsert_ne _ _ _ _ h]

/-- Retrieval is lookup of the first element of the key's sequence. -/
theorem get_component_eq_head (m : Components) (t : TypeId) :
    get_component m t = (hmGet m t).bind List.head? := by
  unfold get_component
  by_cases h : containsKey m t
  · rw [if_pos h]
    cases hg : hmGet m t with
    | none => rfl
    | some v => cases v <;> simp
  · rw [if_neg h,
      hmGet_eq_none_of_not_contains m t (by simpa using h)]
    rfl

/-- The two lookups (shared and mutable) resolve identically. -/
theorem get_component_mut_eq (m : Components) (t : TypeId) :
    get_component_mut m t = get_component m t := rfl

theorem get_component_add_ne (m : Components) (c : AnyBox) (u : TypeId)
    (h : u ≠ c.tid) :
    get_component (add_component m c) u = get_component m u := by
  rw [get_component_eq_head, get_component_eq_head,
    hmGet_add_component_ne m c u h]

theorem getD_nil_of_get_none (m : Components) (t : TypeId)
    (h : get_component m t = none) : (hmGet m t).getD [] = [] := by
  rw [get_component_eq_head] at h
  cases hg : hmGet m t with
  | none => rfl
  | some v =>
    rw [hg] at h
    simp only [Option.bind_some, Option.getD_some] at *
    exact List.head?_eq_none_iff.mp h

theorem get_component_add_self_ne_none (m : Components) (c : AnyBox) :
    get_component (add_component m c) c.tid ≠ none := by
  rw [get_component_eq_head, hmGet_add_component]
  cases hg : (hmGet m c.tid).getD [] with
  | nil => simp
  | cons a as => simp

theorem wellTyped_hmPush (m : Components) (t : TypeId) (c : AnyBox)
    (hw : WellTyped m) (hc : c.tid = t) : WellTyped (hmPush m t c) := by
  induction m with
  | nil => intro p hp; simp [hmPush] at hp
  | cons q rest ih =>
    obtain ⟨k, v⟩ := q
    simp only [hmPush]
    by_cases hk : k = t
    · rw [if_pos hk]
      intro p hp
      rcases List.mem_cons.mp hp with h1 | h2
      · subst h1
        intro x hx
        rcases List.mem_append.mp hx with hv | hc1
        · exact hw (k, v) (List.mem_cons_self _ _) x hv
        · simp at hc1
          subst hc1
          simp [hc, hk]
      · exact hw p (List.mem_cons_of_mem _ h2)
    · rw [if_neg hk]
      intro p hp
      rcases List.mem_cons.mp hp with h1 | h2
      · subst h1
        exact hw (k, v) (List.mem_cons_self _ _)
      · exact ih (fun q hq => hw q (List.mem_cons_of_mem _ hq)) p h2

theorem wellTyped_hmInsert_nil (m : Components) (t : TypeId)
    (hw : WellTyped m) : WellTyped (hmInsert m t []) := by
  induction m with
  | nil =>
    intro p hp
    simp [hmInsert] at hp
    subst hp
    intro x hx
    simp at hx
  | cons q rest ih =>
    obtain ⟨k, v⟩ := q
    simp only [hmInsert]
    by_cases hk : k = t
    · rw [if_pos hk]
      intro p hp
      rcases List.mem_cons.mp hp with h1 | h2
      · subst h1; intro x hx; simp at hx
      · exact hw p (List.mem_cons_of_mem _ h2)
    · rw [if_neg hk]
      intro p hp
      rcases List.mem_cons.mp hp with h1 | h2
      · subst h1
        exact hw (k, v) (List.mem_cons_self _ _)
      · exact ih (fun q hq => hw q (List.mem_cons_of_mem _ hq)) p h2

theorem wellTyped_add_component (m : Components) (c : AnyBox)
    (hw : WellTyped m) : WellTyped (add_component m c) := by
  unfold add_component
  by_cases h : containsKey m c.tid
  · rw [if_pos h]
    exact wellTyped_hmPush m c.tid c hw rfl
  · rw [if_neg h]
    exact wellTyped_hmPush _ c.tid c (wellTyped_hmInsert_nil m c.tid hw) rfl

theorem hmGet_wellTyped (m : Components) (t : TypeId) (v : List AnyBox)
    (hw : WellTyped m) (hg : hmGet m t = some v) : ∀ c ∈ v, c.tid = t := by
  induction m with
  | nil => simp [hmGet] at hg
  | cons q rest ih =>
    obtain ⟨k, w⟩ := q
    simp only [hmGet] at hg
    by_cases hk : k = t
    · rw [if_pos hk] at hg
      have hwv : w = v := Option.some.inj hg
      intro c hc
      rw [← hwv] at hc
      have := hw (k, w) (List.mem_cons_self _ _) c hc
      simpa [hk] using this
    · rw [if_neg hk] at hg
      exact ih (fun q hq => hw q (List.mem_cons_of_mem _ hq)) hg

theorem get_component_tid (m : Components) (t : TypeId) (c : AnyBox)
    (hw : WellTyped m) (h : get_component m t = some c) : c.tid = t := by
  rw [get_component_eq_head] at h
  cases hg : hmGet m t with
  | none => rw [hg] at h; exact Option.noConfusion h
  | some v =>
    rw [hg] at h
    have h2 : v.head? = some c := h
    have hc : c ∈ v := by
      cases v with
      | nil => exact Option.noConfusion h2
      | cons a as =>
        simp only [List.head?] at h2
        cases h2
        exact (List.mem_cons_self _ _)
    exact hmGet_wellTyped m t v hw hg c hc

theorem get_typed_none_iff (m : Components) (t : TypeId) (hw : WellTyped m) :
    get_component_typed m t = none ↔ get_component m t = none := by
  constructor
  · intro h
    cases hg : get_component m t with
    | none => rfl
    | some c =>
      have htid := get_component_tid m t c hw hg
      rw [get_component_typed, hg] at h
      simp [downcast_ref, htid] at h
  · intro h
    rw [get_component_typed, h]
    rfl

theorem get_foldl_none_iff (ops : List (TypeId × Nat)) :
    ∀ (m : Components) (T : TypeId),
      get_component
          (ops.foldl (fun m p => add_component_typed m p.1 p.2) m) T = none ↔
        (get_component m T = none ∧ T ∉ ops.map Prod.fst) := by
  induction ops with
  | nil => intro m T; simp
  | cons p ops ih =>
    intro m T
    obtain ⟨t, v⟩ := p
    rw [List.foldl_cons, ih]
    by_cases hT : T = t
    · subst hT
      constructor
      · intro ⟨h1, _⟩
        exact absurd h1 (get_component_add_self_ne_none m ⟨T, v⟩)
      · intro ⟨_, h2⟩
        simp at h2
    · have : get_component (add_component_typed m t v) T = get_component m T :=
        get_component_add_ne m ⟨t, v⟩ T hT
      rw [this]
      simp [hT]

theorem wellTyped_build_store (ops : List (TypeId × Nat)) :
    WellTyped (build_store ops) := by
  have main : ∀ (l : List (TypeId × Nat)) (m : Components), WellTyped m →
      WellTyped (l.foldl (fun m p => add_component_typed m p.1 p.2) m) := by
    intro l
    induction l with
    | nil => intro m hm; exact hm
    | cons p ops ih =>
      intro m hm
      rw [List.foldl_cons]
      exact ih _ (wellTyped_add_component m ⟨p.1, p.2⟩ hm)
  exact main ops [] (by intro p hp; simp at hp)

theorem hmGet_write_component_mut (m : Components) (t : TypeId) (x : Nat) :
    hmGet (write_component_mut m t x) t =
      (hmGet m t).map
        (fun v => match v with
                  | [] => []
                  | c :: cs => ⟨c.tid, x⟩ :: cs) := by
  induction m with
  | nil => simp [write_component_mut, hmGet]
  | cons p rest ih =>
    obtain ⟨k, v⟩ := p
    simp only [write_component_mut]
    by_cases hk : k = t
    · rw [if_pos hk]
      simp [hmGet, hk]
    · rw [if_neg hk]
      simp [hmGet, hk, ih]

theorem storeInv_hmPush (m : Components) (t : TypeId) (c : AnyBox)
    (h : StoreInv m) : StoreInv (hmPush m t c) := by
  induction m with
  | nil => intro p hp; simp [hmPush] at hp
  | cons q rest ih =>
    obtain ⟨k, v⟩ := q
    simp only [hmPush]
    by_cases hk : k = t
    · rw [if_pos hk]
      intro p hp
      rcases List.mem_cons.mp hp with h1 | h2
      · subst h1; simp
      · exact h p (List.mem_cons_of_mem _ h2)
    · rw [if_neg hk]
      intro p hp
      rcases List.mem_cons.mp hp with h1 | h2
      · subst h1; exact h (k, v) (List.mem_cons_self _ _)
      · exact ih (fun q hq => h q (List.mem_cons_of_mem _ hq)) p h2

theorem storeInv_push_insert (m : Components) (t : TypeId) (c : AnyBox)
    (hm : StoreInv m) (h : containsKey m t = false) :
    StoreInv (hmPush (hmInsert m t []) t c) := by
  induction m with
  | nil =>
    intro p hp
    simp [hmInsert, hmPush] at hp
    subst hp
    simp
  | cons q rest ih =>
    obtain ⟨k, v⟩ := q
    simp only [containsKey, Bool.or_eq_false_iff] at h
    obtain ⟨hk0, hrest⟩ := h
    have hk : ¬ k = t := by simpa using hk0
    simp only [hmInsert, hmPush, if_neg hk]
    intro p hp
    rcases List.mem_cons.mp hp with h1 | h2
    · subst h1; exact hm (k, v) (List.mem_cons_self _ _)
    · exact ih (fun q hq => hm q (List.mem_cons_of_mem _ hq)) hrest p h2

theorem storeInv_add_component (m : Components) (c : AnyBox)
    (h : StoreInv m) : StoreInv (add_component m c) := by
  unfold add_component
  by_cases hc : containsKey m c.tid
  · rw [if_pos hc]
    exact storeInv_hmPush m c.tid c h
  · rw [if_neg hc]
    exact storeInv_push_insert m c.tid c h (by simpa using hc)

theorem storeInv_write_component_mut (m : Components) (t : TypeId) (x : Nat)
    (h : StoreInv m) : StoreInv (write_component_mut m t x) := by
  induction m with
  | nil => intro p hp; simp [write_component_mut] at hp
  | cons q rest ih =>
    obtain ⟨k, v⟩ := q
    simp only [write_component_mut]
    by_cases hk : k = t
    · rw [if_pos hk]
      intro p hp
      rcases List.mem_cons.mp hp with h1 | h2
      · subst h1
        have hv : v ≠ [] := h (k, v) (List.mem_cons_self _ _)
        cases v with
        | nil => exact absurd rfl hv
        | cons a as => simp
      · exact h p (List.mem_cons_of_mem _ h2)
    · rw [if_neg hk]
      intro p hp
      rcases List.mem_cons.mp hp with h1 | h2
      · subst h1; exact h (k, v) (List.mem_cons_self _ _)
      · exact ih (fun q hq => h q (List.mem_cons_of_mem _ hq)) p h2

-- Claim theorems for the component store.

/-- C1.  First-insert-wins retrieval: from a store holding no value of type
identity `T`, inserting `v1 : T` and then `v2 : T` makes
`get_component::<T>()` return `v1`, not `v2`; and in general retrieval by
type yields the first element of the key's sequence, never a later one. -/
theorem first_insert_wins :
    (∀ (m : Components) (T : TypeId) (v1 v2 : Nat),
        get_component m T = none →
        get_component_typed
            (add_component_typed (add_component_typed m T v1) T v2) T =
          some v1)
    ∧ ∀ (m : Components) (t : TypeId),
        get_component m t = (hmGet m t).bind List.head? := by
  constructor
  · intro m T v1 v2 h
    have h0 : (hmGet m T).getD [] = [] := getD_nil_of_get_none m T h
    have h1 : hmGet (add_component m ⟨T, v1⟩) T = some [⟨T, v1⟩] := by
      have := hmGet_add_component m ⟨T, v1⟩
      simpa [h0] using this
    have h2 : hmGet (add_component (add_component m ⟨T, v1⟩) ⟨T, v2⟩) T =
        some [⟨T, v1⟩, ⟨T, v2⟩] := by
      have := hmGet_add_component (add_component m ⟨T, v1⟩) ⟨T, v2⟩
      simpa [h1] using this
    simp [get_component_typed, add_component_typed, get_component_eq_head,
      h2, downcast_ref]
  · exact get_component_eq_head

/-- C1 witness: on the empty store, after inserting payloads 1 then 2 under
type identity 0, retrieval returns the first payload 1. -/
theorem first_insert_wins_witness :
    get_component ([] : Components) 0 = none ∧
      get_component_typed
          (add_component_typed (add_component_typed ([] : Components) 0 1)
            0 2) 0 = some 1 :=
  ⟨by decide, first_insert_wins.1 [] 0 1 2 (by decide)⟩

/-- C2.  Type-isolation: for distinct type identities `T ≠ U`, adding a value
of type `T` leaves both `get_component::<U>()` and
`get_component_mut::<U>()` unchanged. -/
theorem type_isolation :
    ∀ (m : Components) (T U : TypeId) (v : Nat), T ≠ U →
      get_component_typed (add_component_typed m T v) U =
          get_component_typed m U
        ∧ get_component_mut_typed (add_component_typed m T v) U =
          get_component_mut_typed m U := by
  intro m T U v h
  have he : get_component (add_component m ⟨T, v⟩) U = get_component m U :=
    get_component_add_ne m ⟨T, v⟩ U (Ne.symm h)
  constructor
  · simp [get_component_typed, add_component_typed, he]
  · simp [get_component_mut_typed, get_component_mut_eq,
      add_component_typed, he]

/-- C2 witness: with a value of type identity 1 present, adding a value of
type identity 0 leaves retrieval at identity 1 unchanged. -/
theorem type_isolation_witness :
    (0 : TypeId) ≠ 1 ∧
      get_component_typed
          (add_component_typed [((1 : TypeId), [(⟨1, 5⟩ : AnyBox)])] 0 7) 1 =
        get_component_typed [((1 : TypeId), [(⟨1, 5⟩ : AnyBox)])] 1 :=
  ⟨by decide, (type_isolation [((1 : TypeId), [(⟨1, 5⟩ : AnyBox)])] 0 1 7
    (by decide)).1⟩

/-- C3.  Absence correctness and error signaling: on a store built by any
sequence of typed insertions, `get_component::<T>()` (and
`get_component_mut::<T>()`) returns `none` exactly when no value of type
identity `T` was ever inserted; and the `unwrap` inside the lookup never
panics, because `contains_key` guarantees the entry exists. -/
theorem absence_correctness :
    (∀ (ops : List (TypeId × Nat)) (T : TypeId),
        get_component_typed (build_store ops) T = none ↔
          T ∉ ops.map Prod.fst)
    ∧ (∀ (ops : List (TypeId × Nat)) (T : TypeId),
        get_component_mut_typed (build_store ops) T = none ↔
          T ∉ ops.map Prod.fst)
    ∧ ∀ (m : Components) (t : TypeId),
        containsKey m t = true → (hmGet m t).isSome := by
  have herased : ∀ (ops : List (TypeId × Nat)) (T : TypeId),
      get_component (build_store ops) T = none ↔ T ∉ ops.map Prod.fst := by
    intro ops T
    have := get_foldl_none_iff ops [] T
    rw [build_store, this]
    simp [get_component, containsKey]
  have htyped : ∀ (ops : List (TypeId × Nat)) (T : TypeId),
      get_component_typed (build_store ops) T = none ↔
        T ∉ ops.map Prod.fst := by
    intro ops T
    rw [get_typed_none_iff _ _ (wellTyped_build_store ops), herased]
  refine ⟨htyped, ?_, ?_⟩
  · intro ops T
    rw [get_component_mut_typed]
    rw [show get_component_mut (build_store ops) T =
          get_component (build_store ops) T from rfl]
    exact htyped ops T
  · intro m t h
    exact (containsKey_iff_isSome m t).mp h

/-- C3 witness: with an entry present under key 0, `contains_key` is true and
the guarded `unwrap` target exists. -/
theorem absence_correctness_witness :
    containsKey [((0 : TypeId), [(⟨0, 5⟩ : AnyBox)])] 0 = true ∧
      (hmGet [((0 : TypeId), [(⟨0, 5⟩ : AnyBox)])] 0).isSome :=
  ⟨by decide,
    absence_correctness.2.2 [((0 : TypeId), [(⟨0, 5⟩ : AnyBox)])] 0
      (by decide)⟩

/-- C4.  Insertion contract: `add_component` appends the value to the
sequence keyed by the value's runtime type identity, creating the sequence
when absent; afterwards the key is present and its sequence is the old one
(empty if absent) with the new value last — one element longer, never
failing. -/
theorem insertion_contract :
    ∀ (m : Components) (c : AnyBox),
      hmGet (add_component m c) c.tid =
          some ((hmGet m c.tid).getD [] ++ [c])
        ∧ containsKey (add_component m c) c.tid = true :=
  fun m c => ⟨hmGet_add_component m c, containsKey_add_component m c⟩

/-- C5.  Mutation visibility: when `get_component_mut::<T>()` finds a value,
writing payload `y` through the returned reference is visible to a
subsequent `get_component::<T>()` on the same store; both lookups resolve to
the same first element of the sequence. -/
theorem mutation_visibility :
    (∀ (m : Components) (T : TypeId) (x y : Nat),
        get_component_mut_typed m T = some x →
        get_component_typed (write_component_mut m T y) T = some y)
    ∧ ∀ (m : Components) (t : TypeId),
        get_component_mut m t = get_component m t := by
  constructor
  · intro m T x y h
    rw [get_component_mut_typed, get_component_mut_eq] at h
    obtain ⟨c, hc, hdc⟩ := Option.bind_eq_some.mp h
    have htid : c.tid = T := by
      rw [downcast_ref] at hdc
      by_cases ht : c.tid = T
      · exact ht
      · rw [if_neg ht] at hdc; exact Option.noConfusion hdc
    rw [get_component_eq_head] at hc
    obtain ⟨v, hv, hhead⟩ := Option.bind_eq_some.mp hc
    obtain ⟨cs, rfl⟩ : ∃ cs, v = c :: cs := by
      cases v with
      | nil => exact Option.noConfusion hhead
      | cons a as =>
        simp only [List.head?] at hhead
        cases hhead
        exact ⟨as, rfl⟩
    rw [get_component_typed, get_component_eq_head,
      hmGet_write_component_mut, hv]
    simp [downcast_ref, htid]
  · exact get_component_mut_eq

/-- C5 witness: on the store holding payload 5 under type identity 0, the
mutable lookup finds 5, and after writing 7 through the returned reference
the shared lookup reads 7. -/
theorem mutation_visibility_witness :
    get_component_mut_typed [((0 : TypeId), [(⟨0, 5⟩ : AnyBox)])] 0 = some 5 ∧
      get_component_typed
          (write_component_mut [((0 : TypeId), [(⟨0, 5⟩ : AnyBox)])] 0 7) 0 =
        some 7 :=
  ⟨by decide,
    mutation_visibility.1 [((0 : TypeId), [(⟨0, 5⟩ : AnyBox)])] 0 5 7
      (by decide)⟩

/-- C9.  Store non-emptiness invariant: the empty store satisfies it, and
every store mutator — `add_component` (whose transient empty sequence is
immediately filled by the push) and writing through a `get_component_mut`
reference — preserves it; the lookups and the lifecycle calls do not modify
the store at all. -/
theorem store_nonempty_invariant :
    StoreInv ([] : Components)
    ∧ (∀ (m : Components) (c : AnyBox),
        StoreInv m → StoreInv (add_component m c))
    ∧ ∀ (m : Components) (t : TypeId) (x : Nat),
        StoreInv m → StoreInv (write_component_mut m t x) :=
  ⟨fun p hp => absurd hp (List.not_mem_nil p),
    storeInv_add_component,
    storeInv_write_component_mut⟩

/-- C9 witness: inserting into the empty store yields a store whose only key
maps to a non-empty sequence. -/
theorem store_nonempty_invariant_witness :
    StoreInv ([] : Components) ∧ StoreInv (add_component [] ⟨0, 3⟩) :=
  ⟨fun p hp => absurd hp (List.not_mem_nil p),
    store_nonempty_invariant.2.1 [] ⟨0, 3⟩
      (fun p hp => absurd hp (List.not_mem_nil p))⟩

-- Claim theorems for the entity lifecycle and scene propagation.

/-- C6.  Update dispatch: `update(delta_sec)` invokes the callback set's
on_updating hook exactly once with the same `delta_sec` it was given — an
instrumented hook records exactly one invocation carrying `dt` — and in the
spec's concrete scenario (a counter starting at 0, `update(1.5)` then
`update(2.5)`) the counter ends at 4. -/
theorem update_dispatch :
    (∀ (e : CoreEntity (List Rat)) (dt : Rat),
        (CoreEntity.update traceCallbacks e dt).callbacks =
          e.callbacks ++ [dt])
    ∧ ∀ (t : Transform) (m : Components),
        (CoreEntity.update counterCallbacks
            (CoreEntity.update counterCallbacks ⟨t, m, 0⟩ 1.5) 2.5).callbacks
          = 4 := by
  constructor
  · intro e dt
    rfl
  · intro t m
    show (0 : Rat) + 1.5 + 2.5 = 4
    norm_num

/-- C7.  Scene lifecycle propagation: for a scene holding entities E1, E2,
E3 added in that order, one scene-level `update(dt)` runs each entity's
on_updating hook exactly once, in insertion order, all with the same `dt`
(each instrumented entity records exactly the one invocation `dt`). -/
theorem scene_lifecycle_propagation :
    ∀ (e1 e2 e3 : CoreEntity (List Rat)) (dt : Rat),
      (CoreScene.update traceCallbacks
          ((((CoreScene.new (List Rat)).add_entity e1).add_entity
            e2).add_entity e3) dt).entities =
        [{ e1 with callbacks := e1.callbacks ++ [dt] },
         { e2 with callbacks := e2.callbacks ++ [dt] },
         { e3 with callbacks := e3.callbacks ++ [dt] }] := by
  intro e1 e2 e3 dt
  rfl

/-- C8.  No-op default: with a callback set implementing neither hook,
`load()` and `update(dt)` return the entity unchanged — transform, component
store and callback state included. -/
theorem noop_default :
    ∀ (σ : Type) (e : CoreEntity σ) (dt : Rat),
      CoreEntity.load (EntityCallbacks.noop σ) e = e ∧
        CoreEntity.update (EntityCallbacks.noop σ) e dt = e := by
  intro σ e dt
  exact ⟨rfl, rfl⟩

end Radiance

namespace OpenPal4

theorem list_get?_isSome_iff {α : Type} (l : List α) (n : Nat) :
    (l.get? n).isSome = true ↔ n < l.length := by
  induction l generalizing n with
  | nil => simp [List.get?]
  | cons a l ih =>
    cases n with
    | zero => simp [List.get?]
    | succ n =>
      simp only [List.get?, List.length_cons]
      rw [ih]
      omega

/-- C10.  Unchecked player indexing: `get_player` and `get_player_metadata`
return normally exactly for `player_id` in `0..=3`; for `player_id ≥ 4` they
panic (array index out of bounds, respectively the `unreachable!` arm),
embedded as `none`, rather than returning an error value. -/
theorem unchecked_player_indexing :
    ∀ (ε : Type) (s : Pal4Scene ε) (player_id : Nat),
      ((s.get_player player_id).isSome = true ↔ player_id < 4) ∧
        ((s.get_player_metadata player_id).isSome = true ↔
          player_id < 4) := by
  intro ε s i
  constructor
  · rw [Pal4Scene.get_player, list_get?_isSome_iff, s.players_length]
  · rcases i with _ | (_ | (_ | (_ | n))) <;>
      simp [Pal4Scene.get_player_metadata]

end OpenPal4
